import Mathlib

/-
Verification of the markdown front end: the character-stream tokenizer
(src/markdown/parse/token.rs) and the heading block rule
(src/markdown/parse/heading.rs).

The source text is modelled as a list of bytes (the Rust code indexes a
UTF-8 and-str by byte offsets).  The expression source.get(p..p+1) in the
Rust code returns a one-byte string slice exactly when p is in range and
both p and p+1 are character boundaries; for a valid UTF-8 string this
holds exactly when p < length and the byte at p is ASCII (below 128).
The function peek below captures that behaviour.

Machine integers (usize) are modelled as Nat; none of the verified
operations can overflow 2^64 on slices of a real string.
-/

/-- A half-open byte-offset interval into the source text
(type Slice = (usize, usize) in token.rs). -/
abbrev Slice := Nat × Nat

/-- WHITESPACE_CHARS from token.rs: space and tab, as bytes. -/
def WHITESPACE_CHARS : List Nat := [32, 9]

/-- NUMBER_CHARS from token.rs: the decimal digit characters, as bytes. -/
def NUMBER_CHARS : List Nat := [48, 49, 50, 51, 52, 53, 54, 55, 56, 57]

/-- The Token enum from token.rs: a tagged union over lexical categories,
each wrapping a Slice. -/
inductive Token
  | RightCaret (s : Slice)
  | Hash (s : Slice)
  | Dash (s : Slice)
  | Asterisk (s : Slice)
  | Plus (s : Slice)
  | NumDot (s : Slice)
  | NumParen (s : Slice)
  | Plaintext (s : Slice)
  | Whitespace (s : Slice)
  | Newline (s : Slice)
deriving DecidableEq, Repr

/-- Modelled from the spec: the node Kind (node.rs is outside src/).
A Kind is either a container kind such as Heading(level) carrying a
numeric level, or a leaf kind such as Plaintext or Whitespace (section 3
of the spec).  Only the kinds used by the verified code are modelled. -/
inductive Kind
  | Heading (level : Nat)
  | Plaintext
  | Whitespace
deriving DecidableEq, Repr

/-- Modelled from the spec: a Node (node.rs is outside src/) is a tree
element with a Kind, a start offset, and an optional end offset, unset
while the block is still open (section 3 of the spec).  Children are out
of scope (section 1) and are not needed by the verified code. -/
structure Node where
  kind : Kind
  start : Nat
  endOff : Option Nat
deriving DecidableEq, Repr

/-- Modelled from the spec: Node::new constructs a node with the given
kind and start offset and no end offset yet. -/
def Node.new (k : Kind) (start : Nat) : Node := ⟨k, start, none⟩

/-- Modelled from the spec: Node::new_inline constructs an inline leaf
node of the given kind over the slice from start to the given end. -/
def Node.new_inline (k : Kind) (start endp : Nat) : Node := ⟨k, start, some endp⟩

/-- Modelled from the spec: Link is the shared mutable handle to a Node
(Rc of RefCell of Node); modelled by value, since this single-threaded
code never aliases a handle the verified claims can observe. -/
abbrev Link := Node

/-- The Into conversion from token.rs: every Token converts to an inline
leaf Node over the same slice; marker and text tokens map to the
Plaintext kind, Whitespace and Newline map to the Whitespace kind. -/
def tokenToNode : Token → Link
  | Token.RightCaret (start, endp) => Node.new_inline Kind.Plaintext start endp
  | Token.Hash (start, endp) => Node.new_inline Kind.Plaintext start endp
  | Token.Dash (start, endp) => Node.new_inline Kind.Plaintext start endp
  | Token.Asterisk (start, endp) => Node.new_inline Kind.Plaintext start endp
  | Token.Plus (start, endp) => Node.new_inline Kind.Plaintext start endp
  | Token.NumParen (start, endp) => Node.new_inline Kind.Plaintext start endp
  | Token.NumDot (start, endp) => Node.new_inline Kind.Plaintext start endp
  | Token.Plaintext (start, endp) => Node.new_inline Kind.Plaintext start endp
  | Token.Whitespace (start, endp) => Node.new_inline Kind.Whitespace start endp
  | Token.Newline (start, endp) => Node.new_inline Kind.Whitespace start endp

/-- The TokenizerState enum from token.rs. -/
inductive TokenizerState
  | Unset
  | Done
  | Hash
  | Plaintext
  | Whitespace
  | Number
deriving DecidableEq, Repr

/-- The Tokenizer struct from token.rs: a cursor offset and the source. -/
structure Tokenizer where
  start : Nat
  source : List Nat
deriving DecidableEq, Repr

/-- Tokenizer::new from token.rs. -/
def Tokenizer.new (start : Nat) (source : List Nat) : Tokenizer := ⟨start, source⟩

/-- The lookup self.source.get(p..p+1) from token.rs: a one-byte slice
exists exactly when p is in range and the byte at p is ASCII (both p and
p+1 are then character boundaries of the UTF-8 source). -/
def peek (source : List Nat) (p : Nat) : Option Nat :=
  match source.get? p with
  | some b => if b < 128 then some b else none
  | none => none

/-- One iteration of the while loop in Tokenizer::next (token.rs lines
71-154): from the current state, cursor p and pending result, match on
(state, source.get(p..p+1)) and produce the next state, cursor and
pending result.  The match arms appear in the order of the source. -/
def step (source : List Nat) (start : Nat) (st : TokenizerState) (p : Nat)
    (r : Option Token) : TokenizerState × Nat × Option Token :=
  match st, peek source p with
  | TokenizerState.Whitespace, some c =>
      if c ∈ WHITESPACE_CHARS then (TokenizerState.Whitespace, p + 1, r)
      else (TokenizerState.Done, p, some (Token.Whitespace (start, p)))
  | TokenizerState.Whitespace, none =>
      (TokenizerState.Done, p, some (Token.Whitespace (start, p)))
  | TokenizerState.Plaintext, some c =>
      if c ∈ WHITESPACE_CHARS then (TokenizerState.Done, p, some (Token.Plaintext (start, p)))
      else if c = 10 then (TokenizerState.Done, p, some (Token.Plaintext (start, p)))
      else (TokenizerState.Plaintext, p + 1, r)
  | TokenizerState.Plaintext, none =>
      (TokenizerState.Done, p, some (Token.Plaintext (start, p)))
  | TokenizerState.Number, some c =>
      if c ∈ NUMBER_CHARS then (TokenizerState.Number, p + 1, r)
      else if c = 46 then (TokenizerState.Done, p + 1, some (Token.NumDot (start, p + 1)))
      else if c = 41 then (TokenizerState.Done, p + 1, some (Token.NumParen (start, p + 1)))
      else (TokenizerState.Plaintext, p + 1, r)
  | TokenizerState.Number, none => (TokenizerState.Plaintext, p + 1, r)
  | TokenizerState.Hash, some c =>
      if c = 35 then (TokenizerState.Hash, p + 1, r)
      else (TokenizerState.Done, p, some (Token.Hash (start, p)))
  | TokenizerState.Hash, none =>
      (TokenizerState.Done, p, some (Token.Hash (start, p)))
  | TokenizerState.Unset, some c =>
      if c = 45 then (TokenizerState.Done, p + 1, some (Token.Dash (start, p + 1)))
      else if c = 42 then (TokenizerState.Done, p + 1, some (Token.Asterisk (start, p + 1)))
      else if c = 43 then (TokenizerState.Done, p + 1, some (Token.Plus (start, p + 1)))
      else if c ∈ WHITESPACE_CHARS then (TokenizerState.Whitespace, p + 1, r)
      else if c ∈ NUMBER_CHARS then (TokenizerState.Number, p + 1, r)
      else if c = 10 then (TokenizerState.Done, p + 1, some (Token.Newline (start, p + 1)))
      else if c = 62 then (TokenizerState.Done, p + 1, some (Token.RightCaret (start, p + 1)))
      else if c = 35 then (TokenizerState.Hash, p + 1, some (Token.Hash (start, p + 1)))
      else (TokenizerState.Plaintext, p + 1, r)
  | TokenizerState.Unset, none => (TokenizerState.Done, p, r)
  | TokenizerState.Done, _ => (TokenizerState.Done, p, r)

/-- The while loop of Tokenizer::next, with an explicit iteration budget
(the fuel).  When the budget runs out the current configuration is
returned as is; the termination theorems below show that the budget used
by Tokenizer.next always reaches the Done state. -/
def runLoop (source : List Nat) (start : Nat) :
    Nat → TokenizerState → Nat → Option Token → TokenizerState × Nat × Option Token
  | 0, st, p, r => (st, p, r)
  | fuel + 1, st, p, r =>
      if st = TokenizerState.Done then (st, p, r)
      else
        runLoop source start fuel (step source start st p r).1
          (step source start st p r).2.1 (step source start st p r).2.2

/-- Tokenizer::next from token.rs: run the loop from the Unset state at
the cursor, then advance the cursor to the final position and return the
produced token, if any.  The iteration budget remaining + 2 provably
suffices (see the termination theorems). -/
def Tokenizer.next (t : Tokenizer) : Option Token × Tokenizer :=
  let out := runLoop t.source t.start (t.source.length - t.start + 2)
    TokenizerState.Unset t.start none
  (out.2.2, ⟨out.2.1, t.source⟩)

/-- Collect the tokens produced by repeatedly calling Tokenizer.next, up
to a budget of calls; collection stops at the first call returning no
token, as Iterator consumers do. -/
def collectTokens : Nat → Tokenizer → List Token
  | 0, _ => []
  | fuel + 1, t =>
      match t.next with
      | (none, _) => []
      | (some tok, t2) => tok :: collectTokens fuel t2

/-- The whole token sequence of a tokenizer constructed at the given
start offset over the given source.  The call budget length + 2 always
suffices: every call that produces a token strictly advances the cursor,
and the cursor never moves beyond length + 1. -/
def tokenize (start : Nat) (source : List Nat) : List Token :=
  collectTokens (source.length + 2) (Tokenizer.new start source)

/-- heading.rs open: matches the lookahead pattern Hash, Whitespace,
anything, guarded by hash run length at most 6; on match, a new Heading
node at the Hash start paired with the offset bound to the name endp,
which the source binds from the Hash token.  The usize subtraction
endp - start is modelled by Nat subtraction; the two agree whenever
start is at most endp, and every tokenizer-produced slice satisfies
that (usize subtraction would abort on underflow in checked builds). -/
def headingOpen (_parent : Node) (a b _c : Option Token) : Option (Link × Nat) :=
  match a, b with
  | some (Token.Hash (start, endp)), some (Token.Whitespace _) =>
      if endp - start ≤ 6 then some (Node.new (Kind.Heading (endp - start)) start, endp)
      else none
  | _, _ => none

/-- heading.rs consume: delegate to the leaf consumer (leaf.rs is
outside src/, so the leaf consumer is passed here as a function
argument); whatever it answers, the node end offset is set by this very
call.  The mutation of the node is modelled by returning the updated
node alongside the Option result. -/
def headingConsume (leafConsume : Node → Nat → List Nat → Option Nat)
    (node : Node) (start : Nat) (source : List Nat) : Node × Option Nat :=
  match leafConsume node start source with
  | some p => (⟨node.kind, node.start, some p⟩, some p)
  | none => (⟨node.kind, node.start, some start⟩, none)

example : tokenize 0 [49, 46, 32] = [Token.NumDot (0, 2), Token.Whitespace (2, 3)] := by decide

example : tokenize 0 [49] = [Token.Plaintext (0, 2)] := by decide

example : tokenize 0 [35, 35, 35, 32, 97] =
    [Token.Hash (0, 3), Token.Whitespace (3, 4), Token.Plaintext (4, 5)] := by decide


/-- Unfolding lemma: running with a positive budget checks for Done and
otherwise performs one step. -/
theorem runLoop_succ (source : List Nat) (start fuel : Nat) (st : TokenizerState)
    (p : Nat) (r : Option Token) :
    runLoop source start (fuel + 1) st p r =
      if st = TokenizerState.Done then (st, p, r)
      else
        runLoop source start fuel (step source start st p r).1
          (step source start st p r).2.1 (step source start st p r).2.2 := rfl

/-- Unfolding lemma for a configuration that is not yet Done. -/
theorem runLoop_step (source : List Nat) (start fuel : Nat) (st : TokenizerState)
    (p : Nat) (r : Option Token) (h : ¬ st = TokenizerState.Done) :
    runLoop source start (fuel + 1) st p r =
      runLoop source start fuel (step source start st p r).1
        (step source start st p r).2.1 (step source start st p r).2.2 := by
  rw [runLoop_succ, if_neg h]

/-- The Done state is absorbing: any budget returns the configuration. -/
theorem runLoop_done (source : List Nat) (start fuel : Nat) (p : Nat) (r : Option Token) :
    runLoop source start fuel TokenizerState.Done p r = (TokenizerState.Done, p, r) := by
  cases fuel with
  | zero => rfl
  | succ f => simp [runLoop]

/-- A one-byte slice exists only inside the source. -/
theorem peek_some_lt {source : List Nat} {p c : Nat} (h : peek source p = some c) :
    p < source.length := by
  unfold peek at h
  cases hg : source.get? p with
  | none => rw [hg] at h; exact absurd h (by simp)
  | some b => exact (List.get?_eq_some.mp hg).choose

/-- Out of range, no one-byte slice exists. -/
theorem peek_none_of_ge {source : List Nat} {p : Nat} (h : source.length ≤ p) :
    peek source p = none := by
  unfold peek
  rw [List.get?_eq_none.mpr h]

/-- From the Plaintext state, a budget of remaining + 1 reaches Done and
emits a Plaintext token ending at or after the current cursor. -/
theorem plaintext_run (source : List Nat) (start : Nat) :
    ∀ n q r, source.length - q ≤ n →
      ∃ e, q ≤ e ∧
        runLoop source start (n + 1) TokenizerState.Plaintext q r =
          (TokenizerState.Done, e, some (Token.Plaintext (start, e))) := by
  intro n
  induction n with
  | zero =>
      intro q r hq
      have hpk : peek source q = none := peek_none_of_ge (by omega)
      have hstep : step source start TokenizerState.Plaintext q r =
          (TokenizerState.Done, q, some (Token.Plaintext (start, q))) := by
        simp [step, hpk]
      refine ⟨q, le_refl q, ?_⟩
      rw [runLoop_step source start 0 TokenizerState.Plaintext q r (by decide), hstep]
      exact runLoop_done source start 0 q (some (Token.Plaintext (start, q)))
  | succ n ih =>
      intro q r hq
      cases hpk : peek source q with
      | none =>
          have hstep : step source start TokenizerState.Plaintext q r =
              (TokenizerState.Done, q, some (Token.Plaintext (start, q))) := by
            simp [step, hpk]
          refine ⟨q, le_refl q, ?_⟩
          rw [runLoop_step source start (n + 1) TokenizerState.Plaintext q r (by decide), hstep]
          exact runLoop_done source start (n + 1) q (some (Token.Plaintext (start, q)))
      | some c =>
          have hlt : q < source.length := peek_some_lt hpk
          by_cases hws : c ∈ WHITESPACE_CHARS
          · have hstep : step source start TokenizerState.Plaintext q r =
                (TokenizerState.Done, q, some (Token.Plaintext (start, q))) := by
              simp [step, hpk, hws]
            refine ⟨q, le_refl q, ?_⟩
            rw [runLoop_step source start (n + 1) TokenizerState.Plaintext q r (by decide), hstep]
            exact runLoop_done source start (n + 1) q (some (Token.Plaintext (start, q)))
          · by_cases hnl : c = 10
            · have hstep : step source start TokenizerState.Plaintext q r =
                  (TokenizerState.Done, q, some (Token.Plaintext (start, q))) := by
                simp [step, hpk, hws, hnl]
              refine ⟨q, le_refl q, ?_⟩
              rw [runLoop_step source start (n + 1) TokenizerState.Plaintext q r (by decide), hstep]
              exact runLoop_done source start (n + 1) q (some (Token.Plaintext (start, q)))
            · have hstep : step source start TokenizerState.Plaintext q r =
                  (TokenizerState.Plaintext, q + 1, r) := by
                simp [step, hpk, hws, hnl]
              obtain ⟨e, he, hrun⟩ := ih (q + 1) r (by omega)
              refine ⟨e, by omega, ?_⟩
              rw [runLoop_step source start (n + 1) TokenizerState.Plaintext q r (by decide), hstep]
              exact hrun

/-- From the Whitespace state, a budget of remaining + 1 reaches Done. -/
theorem whitespace_run_done (source : List Nat) (start : Nat) :
    ∀ n q r, source.length - q ≤ n →
      (runLoop source start (n + 1) TokenizerState.Whitespace q r).1 = TokenizerState.Done := by
  intro n
  induction n with
  | zero =>
      intro q r hq
      have hpk : peek source q = none := peek_none_of_ge (by omega)
      have hstep : step source start TokenizerState.Whitespace q r =
          (TokenizerState.Done, q, some (Token.Whitespace (start, q))) := by
        simp [step, hpk]
      rw [runLoop_step source start 0 TokenizerState.Whitespace q r (by decide), hstep,
        runLoop_done]
  | succ n ih =>
      intro q r hq
      cases hpk : peek source q with
      | none =>
          have hstep : step source start TokenizerState.Whitespace q r =
              (TokenizerState.Done, q, some (Token.Whitespace (start, q))) := by
            simp [step, hpk]
          rw [runLoop_step source start (n + 1) TokenizerState.Whitespace q r (by decide), hstep,
            runLoop_done]
      | some c =>
          have hlt : q < source.length := peek_some_lt hpk
          by_cases hws : c ∈ WHITESPACE_CHARS
          · have hstep : step source start TokenizerState.Whitespace q r =
                (TokenizerState.Whitespace, q + 1, r) := by
              simp [step, hpk, hws]
            rw [runLoop_step source start (n + 1) TokenizerState.Whitespace q r (by decide), hstep]
            exact ih (q + 1) r (by omega)
          · have hstep : step source start TokenizerState.Whitespace q r =
                (TokenizerState.Done, q, some (Token.Whitespace (start, q))) := by
              simp [step, hpk, hws]
            rw [runLoop_step source start (n + 1) TokenizerState.Whitespace q r (by decide), hstep,
              runLoop_done]

/-- From the Hash state, a budget of remaining + 1 reaches Done. -/
theorem hash_run_done (source : List Nat) (start : Nat) :
    ∀ n q r, source.length - q ≤ n →
      (runLoop source start (n + 1) TokenizerState.Hash q r).1 = TokenizerState.Done := by
  intro n
  induction n with
  | zero =>
      intro q r hq
      have hpk : peek source q = none := peek_none_of_ge (by omega)
      have hstep : step source start TokenizerState.Hash q r =
          (TokenizerState.Done, q, some (Token.Hash (start, q))) := by
        simp [step, hpk]
      rw [runLoop_step source start 0 TokenizerState.Hash q r (by decide), hstep, runLoop_done]
  | succ n ih =>
      intro q r hq
      cases hpk : peek source q with
      | none =>
          have hstep : step source start TokenizerState.Hash q r =
              (TokenizerState.Done, q, some (Token.Hash (start, q))) := by
            simp [step, hpk]
          rw [runLoop_step source start (n + 1) TokenizerState.Hash q r (by decide), hstep,
            runLoop_done]
      | some c =>
          have hlt : q < source.length := peek_some_lt hpk
          by_cases hc : c = 35
          · have hstep : step source start TokenizerState.Hash q r =
                (TokenizerState.Hash, q + 1, r) := by
              simp [step, hpk, hc]
            rw [runLoop_step source start (n + 1) TokenizerState.Hash q r (by decide), hstep]
            exact ih (q + 1) r (by omega)
          · have hstep : step source start TokenizerState.Hash q r =
                (TokenizerState.Done, q, some (Token.Hash (start, q))) := by
              simp [step, hpk, hc]
            rw [runLoop_step source start (n + 1) TokenizerState.Hash q r (by decide), hstep,
              runLoop_done]

/-- From the Number state, a budget of remaining + 2 reaches Done: the
extra iteration pays for the fall-through into Plaintext, which can move
the cursor one past the end of the input. -/
theorem number_run_done (source : List Nat) (start : Nat) :
    ∀ n q r, source.length - q ≤ n →
      (runLoop source start (n + 2) TokenizerState.Number q r).1 = TokenizerState.Done := by
  intro n
  induction n with
  | zero =>
      intro q r hq
      have hpk : peek source q = none := peek_none_of_ge (by omega)
      have hstep : step source start TokenizerState.Number q r =
          (TokenizerState.Plaintext, q + 1, r) := by
        simp [step, hpk]
      obtain ⟨e, _, hrun⟩ := plaintext_run source start 0 (q + 1) r (by omega)
      rw [runLoop_step source start 1 TokenizerState.Number q r (by decide), hstep, hrun]
  | succ n ih =>
      intro q r hq
      cases hpk : peek source q with
      | none =>
          have hstep : step source start TokenizerState.Number q r =
              (TokenizerState.Plaintext, q + 1, r) := by
            simp [step, hpk]
          obtain ⟨e, _, hrun⟩ := plaintext_run source start (n + 1) (q + 1) r (by omega)
          rw [runLoop_step source start (n + 2) TokenizerState.Number q r (by decide), hstep, hrun]
      | some c =>
          have hlt : q < source.length := peek_some_lt hpk
          by_cases hnum : c ∈ NUMBER_CHARS
          · have hstep : step source start TokenizerState.Number q r =
                (TokenizerState.Number, q + 1, r) := by
              simp [step, hpk, hnum]
            rw [runLoop_step source start (n + 2) TokenizerState.Number q r (by decide), hstep]
            exact ih (q + 1) r (by omega)
          · by_cases hdot : c = 46
            · have hstep : step source start TokenizerState.Number q r =
                  (TokenizerState.Done, q + 1, some (Token.NumDot (start, q + 1))) := by
                simp [step, hpk, hdot, NUMBER_CHARS]
              rw [runLoop_step source start (n + 2) TokenizerState.Number q r (by decide), hstep,
                runLoop_done]
            · by_cases hpar : c = 41
              · have hstep : step source start TokenizerState.Number q r =
                    (TokenizerState.Done, q + 1, some (Token.NumParen (start, q + 1))) := by
                  simp [step, hpk, hpar, NUMBER_CHARS]
                rw [runLoop_step source start (n + 2) TokenizerState.Number q r (by decide), hstep,
                  runLoop_done]
              · have hstep : step source start TokenizerState.Number q r =
                    (TokenizerState.Plaintext, q + 1, r) := by
                  simp [step, hpk, hnum, hdot, hpar]
                obtain ⟨e, _, hrun⟩ := plaintext_run source start (n + 1) (q + 1) r (by omega)
                rw [runLoop_step source start (n + 2) TokenizerState.Number q r (by decide), hstep,
                  hrun]

/-- C7 (amended): every call of the tokenizer loop terminates.  From any
state, cursor and pending result, a budget of remaining + 2 iterations
always reaches the Done state; there is no error state (the state type
has none), so every input is classified into some token or
end-of-sequence.  The budget remaining + 2 is exact: the counterexample
theorem shows remaining iterations alone do not suffice. -/
theorem tokenizer_loop_terminates (source : List Nat) (start : Nat)
    (st : TokenizerState) (p : Nat) (r : Option Token) :
    (runLoop source start (source.length - p + 2) st p r).1 = TokenizerState.Done := by
  have hfuel : source.length - p + 2 = (source.length - p + 1) + 1 := by omega
  cases st with
  | Done => rw [runLoop_done]
  | Plaintext =>
      obtain ⟨e, _, hrun⟩ :=
        plaintext_run source start (source.length - p + 1) p r (by omega)
      rw [hfuel, hrun]
  | Whitespace =>
      have := whitespace_run_done source start (source.length - p + 1) p r (by omega)
      rw [hfuel]
      exact this
  | Hash =>
      have := hash_run_done source start (source.length - p + 1) p r (by omega)
      rw [hfuel]
      exact this
  | Number =>
      exact number_run_done source start (source.length - p) p r (by omega)
  | Unset =>
      rw [hfuel, runLoop_step source start (source.length - p + 1) TokenizerState.Unset p r
        (by decide)]
      cases hpk : peek source p with
      | none =>
          have hstep : step source start TokenizerState.Unset p r =
              (TokenizerState.Done, p, r) := by
            simp [step, hpk]
          rw [hstep, runLoop_done]
      | some c =>
          have hlt : p < source.length := peek_some_lt hpk
          by_cases h45 : c = 45
          · have hstep : step source start TokenizerState.Unset p r =
                (TokenizerState.Done, p + 1, some (Token.Dash (start, p + 1))) := by
              simp [step, hpk, h45]
            rw [hstep, runLoop_done]
          · by_cases h42 : c = 42
            · have hstep : step source start TokenizerState.Unset p r =
                  (TokenizerState.Done, p + 1, some (Token.Asterisk (start, p + 1))) := by
                simp [step, hpk, h45, h42]
              rw [hstep, runLoop_done]
            · by_cases h43 : c = 43
              · have hstep : step source start TokenizerState.Unset p r =
                    (TokenizerState.Done, p + 1, some (Token.Plus (start, p + 1))) := by
                  simp [step, hpk, h45, h42, h43]
                rw [hstep, runLoop_done]
              · by_cases hws : c ∈ WHITESPACE_CHARS
                · have hstep : step source start TokenizerState.Unset p r =
                      (TokenizerState.Whitespace, p + 1, r) := by
                    simp [step, hpk, h45, h42, h43, hws]
                  rw [hstep]
                  have h1 : source.length - p + 1 = (source.length - (p + 1)) + 1 + 1 := by omega
                  rw [h1]
                  exact whitespace_run_done source start (source.length - (p + 1) + 1) (p + 1) r
                    (by omega)
                · by_cases hnum : c ∈ NUMBER_CHARS
                  · have hstep : step source start TokenizerState.Unset p r =
                        (TokenizerState.Number, p + 1, r) := by
                      simp [step, hpk, h45, h42, h43, hws, hnum]
                    rw [hstep]
                    have h1 : source.length - p + 1 = (source.length - (p + 1)) + 2 := by omega
                    rw [h1]
                    exact number_run_done source start (source.length - (p + 1)) (p + 1) r
                      (by omega)
                  · by_cases h10 : c = 10
                    · have hstep : step source start TokenizerState.Unset p r =
                          (TokenizerState.Done, p + 1, some (Token.Newline (start, p + 1))) := by
                        simp [step, hpk, h45, h42, h43, h10, WHITESPACE_CHARS, NUMBER_CHARS]
                      rw [hstep, runLoop_done]
                    · by_cases h62 : c = 62
                      · have hstep : step source start TokenizerState.Unset p r =
                            (TokenizerState.Done, p + 1,
                              some (Token.RightCaret (start, p + 1))) := by
                          simp [step, hpk, h45, h42, h43, h10, h62, WHITESPACE_CHARS, NUMBER_CHARS]
                        rw [hstep, runLoop_done]
                      · by_cases h35 : c = 35
                        · have hstep : step source start TokenizerState.Unset p r =
                              (TokenizerState.Hash, p + 1,
                                some (Token.Hash (start, p + 1))) := by
                            simp [step, hpk, h45, h42, h43, h10, h62, h35, WHITESPACE_CHARS, NUMBER_CHARS]
                          rw [hstep]
                          have h1 : source.length - p + 1 =
                              (source.length - (p + 1) + 1) + 1 := by omega
                          rw [h1]
                          exact hash_run_done source start (source.length - (p + 1) + 1)
                            (p + 1) (some (Token.Hash (start, p + 1))) (by omega)
                        · have hstep : step source start TokenizerState.Unset p r =
                              (TokenizerState.Plaintext, p + 1, r) := by
                            simp only [step, hpk]
                            rw [if_neg h45, if_neg h42, if_neg h43, if_neg hws, if_neg hnum,
                              if_neg h10, if_neg h62, if_neg h35]
                          rw [hstep]
                          obtain ⟨e, _, hrun⟩ :=
                            plaintext_run source start (source.length - p) (p + 1) r (by omega)
                          have h1 : source.length - p + 1 = (source.length - p) + 1 := by omega
                          rw [h1, hrun]

/-- The byte at offset i reads as a decimal digit character. -/
def digitAt (source : List Nat) (i : Nat) : Prop :=
  ∃ b, peek source i = some b ∧ b ∈ NUMBER_CHARS

/-- From the Hash state: after a run of m further hash characters ended
by anything that is not a hash (another character, a non-ASCII byte or
the end of the input), the loop closes a Hash token at the end of the
run.  A budget of m + 1 iterations suffices. -/
theorem hash_state_run (source : List Nat) (start : Nat) :
    ∀ m q r fuel, (∀ j, j < m → peek source (q + j) = some 35) →
      peek source (q + m) ≠ some 35 → m + 1 ≤ fuel →
      runLoop source start fuel TokenizerState.Hash q r =
        (TokenizerState.Done, q + m, some (Token.Hash (start, q + m))) := by
  intro m
  induction m with
  | zero =>
      intro q r fuel _ hstop hfuel
      obtain ⟨f, rfl⟩ : ∃ f, fuel = f + 1 := ⟨fuel - 1, by omega⟩
      have hstep : step source start TokenizerState.Hash q r =
          (TokenizerState.Done, q, some (Token.Hash (start, q))) := by
        cases hpk : peek source q with
        | none => simp [step, hpk]
        | some c =>
            have hc : ¬ c = 35 := by
              intro hc
              rw [hc] at hpk
              exact hstop (by simpa using hpk)
            simp [step, hpk, hc]
      rw [runLoop_step source start f TokenizerState.Hash q r (by decide), hstep, runLoop_done]
      simp
  | succ m ih =>
      intro q r fuel hall hstop hfuel
      obtain ⟨f, rfl⟩ : ∃ f, fuel = f + 1 := ⟨fuel - 1, by omega⟩
      have hpk : peek source q = some 35 := by
        have := hall 0 (by omega)
        simpa using this
      have hstep : step source start TokenizerState.Hash q r =
          (TokenizerState.Hash, q + 1, r) := by
        simp [step, hpk]
      rw [runLoop_step source start f TokenizerState.Hash q r (by decide), hstep]
      have hall2 : ∀ j, j < m → peek source (q + 1 + j) = some 35 := by
        intro j hj
        have := hall (j + 1) (by omega)
        rw [show q + (j + 1) = q + 1 + j by omega] at this
        exact this
      have hstop2 : peek source (q + 1 + m) ≠ some 35 := by
        rw [show q + 1 + m = q + (m + 1) by omega]
        exact hstop
      have := ih (q + 1) r f hall2 hstop2 (by omega)
      rw [this]
      rw [show q + 1 + m = q + (m + 1) by omega]

/-- From the Number state: a run of m further digits ended by a dot
closes a NumDot token including the dot.  A budget of m + 2 suffices. -/
theorem number_state_run_dot (source : List Nat) (start : Nat) :
    ∀ m q r fuel, (∀ j, j < m → digitAt source (q + j)) →
      peek source (q + m) = some 46 → m + 2 ≤ fuel →
      runLoop source start fuel TokenizerState.Number q r =
        (TokenizerState.Done, q + m + 1, some (Token.NumDot (start, q + m + 1))) := by
  intro m
  induction m with
  | zero =>
      intro q r fuel _ hstop hfuel
      obtain ⟨f, rfl⟩ : ∃ f, fuel = f + 1 := ⟨fuel - 1, by omega⟩
      have hpk : peek source q = some 46 := by simpa using hstop
      have hstep : step source start TokenizerState.Number q r =
          (TokenizerState.Done, q + 1, some (Token.NumDot (start, q + 1))) := by
        simp [step, hpk, NUMBER_CHARS]
      rw [runLoop_step source start f TokenizerState.Number q r (by decide), hstep, runLoop_done]
  | succ m ih =>
      intro q r fuel hall hstop hfuel
      obtain ⟨f, rfl⟩ : ∃ f, fuel = f + 1 := ⟨fuel - 1, by omega⟩
      obtain ⟨b, hpk, hb⟩ := hall 0 (by omega)
      rw [show q + 0 = q by omega] at hpk
      have hstep : step source start TokenizerState.Number q r =
          (TokenizerState.Number, q + 1, r) := by
        simp [step, hpk, hb]
      rw [runLoop_step source start f TokenizerState.Number q r (by decide), hstep]
      have hall2 : ∀ j, j < m → digitAt source (q + 1 + j) := by
        intro j hj
        have := hall (j + 1) (by omega)
        rwa [show q + (j + 1) = q + 1 + j by omega] at this
      have hstop2 : peek source (q + 1 + m) = some 46 := by
        rwa [show q + 1 + m = q + (m + 1) by omega]
      have := ih (q + 1) r f hall2 hstop2 (by omega)
      rw [this, show q + 1 + m = q + (m + 1) by omega]

/-- From the Number state: a run of m further digits ended by a closing
parenthesis closes a NumParen token including the parenthesis. -/
theorem number_state_run_paren (source : List Nat) (start : Nat) :
    ∀ m q r fuel, (∀ j, j < m → digitAt source (q + j)) →
      peek source (q + m) = some 41 → m + 2 ≤ fuel →
      runLoop source start fuel TokenizerState.Number q r =
        (TokenizerState.Done, q + m + 1, some (Token.NumParen (start, q + m + 1))) := by
  intro m
  induction m with
  | zero =>
      intro q r fuel _ hstop hfuel
      obtain ⟨f, rfl⟩ : ∃ f, fuel = f + 1 := ⟨fuel - 1, by omega⟩
      have hpk : peek source q = some 41 := by simpa using hstop
      have hstep : step source start TokenizerState.Number q r =
          (TokenizerState.Done, q + 1, some (Token.NumParen (start, q + 1))) := by
        simp [step, hpk, NUMBER_CHARS]
      rw [runLoop_step source start f TokenizerState.Number q r (by decide), hstep, runLoop_done]
  | succ m ih =>
      intro q r fuel hall hstop hfuel
      obtain ⟨f, rfl⟩ : ∃ f, fuel = f + 1 := ⟨fuel - 1, by omega⟩
      obtain ⟨b, hpk, hb⟩ := hall 0 (by omega)
      rw [show q + 0 = q by omega] at hpk
      have hstep : step source start TokenizerState.Number q r =
          (TokenizerState.Number, q + 1, r) := by
        simp [step, hpk, hb]
      rw [runLoop_step source start f TokenizerState.Number q r (by decide), hstep]
      have hall2 : ∀ j, j < m → digitAt source (q + 1 + j) := by
        intro j hj
        have := hall (j + 1) (by omega)
        rwa [show q + (j + 1) = q + 1 + j by omega] at this
      have hstop2 : peek source (q + 1 + m) = some 41 := by
        rwa [show q + 1 + m = q + (m + 1) by omega]
      have := ih (q + 1) r f hall2 hstop2 (by omega)
      rw [this, show q + 1 + m = q + (m + 1) by omega]

/-- From the Number state: a run of m further digits ended by anything
other than a digit, a dot or a closing parenthesis falls through into
Plaintext accumulation; the loop closes a single Plaintext token that
extends past the digit run, and no digit token is emitted. -/
theorem number_state_run_other (source : List Nat) (start : Nat) :
    ∀ m q r fuel, (∀ j, j < m → digitAt source (q + j)) →
      ¬ digitAt source (q + m) → peek source (q + m) ≠ some 46 →
      peek source (q + m) ≠ some 41 → source.length - q + 2 ≤ fuel →
      ∃ e, q + m + 1 ≤ e ∧
        runLoop source start fuel TokenizerState.Number q r =
          (TokenizerState.Done, e, some (Token.Plaintext (start, e))) := by
  intro m
  induction m with
  | zero =>
      intro q r fuel _ hnd hdot hpar hfuel
      obtain ⟨f, rfl⟩ : ∃ f, fuel = f + 1 := ⟨fuel - 1, by omega⟩
      simp only [Nat.add_zero] at hnd hdot hpar
      have hstep : step source start TokenizerState.Number q r =
          (TokenizerState.Plaintext, q + 1, r) := by
        cases hpk : peek source q with
        | none => simp [step, hpk]
        | some c =>
            have hcnum : c ∉ NUMBER_CHARS := fun hc => hnd ⟨c, hpk, hc⟩
            have hc46 : ¬ c = 46 := by
              intro h
              rw [h] at hpk
              exact hdot hpk
            have hc41 : ¬ c = 41 := by
              intro h
              rw [h] at hpk
              exact hpar hpk
            simp [step, hpk, hcnum, hc46, hc41]
      rw [runLoop_step source start f TokenizerState.Number q r (by decide), hstep]
      obtain ⟨e, he, hrun⟩ :=
        plaintext_run source start (f - 1) (q + 1) r (by omega)
      rw [show f - 1 + 1 = f by omega] at hrun
      exact ⟨e, by omega, hrun⟩
  | succ m ih =>
      intro q r fuel hall hnd hdot hpar hfuel
      obtain ⟨f, rfl⟩ : ∃ f, fuel = f + 1 := ⟨fuel - 1, by omega⟩
      obtain ⟨b, hpk, hb⟩ := hall 0 (by omega)
      rw [show q + 0 = q by omega] at hpk
      have hlt : q < source.length := peek_some_lt hpk
      have hstep : step source start TokenizerState.Number q r =
          (TokenizerState.Number, q + 1, r) := by
        simp [step, hpk, hb]
      rw [runLoop_step source start f TokenizerState.Number q r (by decide), hstep]
      have hall2 : ∀ j, j < m → digitAt source (q + 1 + j) := by
        intro j hj
        have := hall (j + 1) (by omega)
        rwa [show q + (j + 1) = q + 1 + j by omega] at this
      have heq : q + 1 + m = q + (m + 1) := by omega
      obtain ⟨e, he, hrun⟩ := ih (q + 1) r f hall2 (heq ▸ hnd) (heq ▸ hdot) (heq ▸ hpar)
        (by omega)
      exact ⟨e, by omega, hrun⟩

/-- Computing Tokenizer.next from a computed run of the loop. -/
theorem next_eq_of_runLoop (source : List Nat) (p : Nat)
    {q : Nat} {r : Option Token}
    (h : runLoop source p (source.length - p + 2) TokenizerState.Unset p none =
      (TokenizerState.Done, q, r)) :
    Tokenizer.next ⟨p, source⟩ = (r, ⟨q, source⟩) := by
  show ((runLoop source p (source.length - p + 2) TokenizerState.Unset p none).2.2,
      (⟨(runLoop source p (source.length - p + 2) TokenizerState.Unset p none).2.1,
        source⟩ : Tokenizer)) = (r, ⟨q, source⟩)
  rw [h]

/-- A dash at the cursor is emitted as a single-character Dash token. -/
theorem next_dash (source : List Nat) (p : Nat) (hpk : peek source p = some 45) :
    Tokenizer.next ⟨p, source⟩ = (some (Token.Dash (p, p + 1)), ⟨p + 1, source⟩) := by
  have hstep : step source p TokenizerState.Unset p none =
      (TokenizerState.Done, p + 1, some (Token.Dash (p, p + 1))) := by
    simp [step, hpk]
  refine next_eq_of_runLoop source p ?_
  rw [show source.length - p + 2 = (source.length - p + 1) + 1 by omega,
    runLoop_step source p (source.length - p + 1) TokenizerState.Unset p none (by decide),
    hstep, runLoop_done]

/-- An asterisk at the cursor is emitted as a single-character Asterisk
token. -/
theorem next_asterisk (source : List Nat) (p : Nat) (hpk : peek source p = some 42) :
    Tokenizer.next ⟨p, source⟩ = (some (Token.Asterisk (p, p + 1)), ⟨p + 1, source⟩) := by
  have hstep : step source p TokenizerState.Unset p none =
      (TokenizerState.Done, p + 1, some (Token.Asterisk (p, p + 1))) := by
    simp [step, hpk]
  refine next_eq_of_runLoop source p ?_
  rw [show source.length - p + 2 = (source.length - p + 1) + 1 by omega,
    runLoop_step source p (source.length - p + 1) TokenizerState.Unset p none (by decide),
    hstep, runLoop_done]

/-- A plus at the cursor is emitted as a single-character Plus token. -/
theorem next_plus (source : List Nat) (p : Nat) (hpk : peek source p = some 43) :
    Tokenizer.next ⟨p, source⟩ = (some (Token.Plus (p, p + 1)), ⟨p + 1, source⟩) := by
  have hstep : step source p TokenizerState.Unset p none =
      (TokenizerState.Done, p + 1, some (Token.Plus (p, p + 1))) := by
    simp [step, hpk]
  refine next_eq_of_runLoop source p ?_
  rw [show source.length - p + 2 = (source.length - p + 1) + 1 by omega,
    runLoop_step source p (source.length - p + 1) TokenizerState.Unset p none (by decide),
    hstep, runLoop_done]

/-- A run of k hash characters at the cursor, ended by anything that is
not a hash, is emitted as one Hash token spanning the whole run. -/
theorem next_hash_run (source : List Nat) (p k : Nat) (hk : 1 ≤ k)
    (hall : ∀ i, i < k → peek source (p + i) = some 35)
    (hstop : peek source (p + k) ≠ some 35) :
    Tokenizer.next ⟨p, source⟩ = (some (Token.Hash (p, p + k)), ⟨p + k, source⟩) := by
  have hpk : peek source p = some 35 := by
    have := hall 0 (by omega)
    simpa using this
  have hlast : p + (k - 1) < source.length := peek_some_lt (hall (k - 1) (by omega))
  have hstep : step source p TokenizerState.Unset p none =
      (TokenizerState.Hash, p + 1, some (Token.Hash (p, p + 1))) := by
    simp [step, hpk, WHITESPACE_CHARS, NUMBER_CHARS]
  have hall2 : ∀ j, j < k - 1 → peek source (p + 1 + j) = some 35 := by
    intro j hj
    have := hall (j + 1) (by omega)
    rwa [show p + (j + 1) = p + 1 + j by omega] at this
  have hstop2 : peek source (p + 1 + (k - 1)) ≠ some 35 := by
    rwa [show p + 1 + (k - 1) = p + k by omega]
  have hrun := hash_state_run source p (k - 1) (p + 1) (some (Token.Hash (p, p + 1)))
    (source.length - p + 1) hall2 hstop2 (by omega)
  refine next_eq_of_runLoop source p ?_
  rw [show source.length - p + 2 = (source.length - p + 1) + 1 by omega,
    runLoop_step source p (source.length - p + 1) TokenizerState.Unset p none (by decide),
    hstep, hrun, show p + 1 + (k - 1) = p + k by omega]

/-- Entering the Number state: the Unset state on a digit moves to the
Number state, consuming the digit. -/
theorem step_unset_digit (source : List Nat) (start p : Nat) (r : Option Token)
    {b : Nat} (hpk : peek source p = some b) (hb : b ∈ NUMBER_CHARS) :
    step source start TokenizerState.Unset p r = (TokenizerState.Number, p + 1, r) := by
  have hrange : 48 ≤ b ∧ b ≤ 57 := by
    have := hb
    simp [NUMBER_CHARS] at this
    rcases this with h|h|h|h|h|h|h|h|h|h <;> omega
  have h45 : ¬ b = 45 := by omega
  have h42 : ¬ b = 42 := by omega
  have h43 : ¬ b = 43 := by omega
  have hws : b ∉ WHITESPACE_CHARS := by
    simp [WHITESPACE_CHARS]
    omega
  simp only [step, hpk]
  rw [if_neg h45, if_neg h42, if_neg h43, if_neg hws, if_pos hb]

/-- A run of k digits at the cursor followed by a dot is emitted as one
NumDot token whose slice includes the dot. -/
theorem next_digits_dot (source : List Nat) (p k : Nat) (hk : 1 ≤ k)
    (hall : ∀ i, i < k → digitAt source (p + i))
    (hstop : peek source (p + k) = some 46) :
    Tokenizer.next ⟨p, source⟩ =
      (some (Token.NumDot (p, p + k + 1)), ⟨p + k + 1, source⟩) := by
  obtain ⟨b, hpk, hb⟩ := hall 0 (by omega)
  rw [show p + 0 = p by omega] at hpk
  have hlast : p + (k - 1) < source.length := by
    obtain ⟨b2, hpk2, _⟩ := hall (k - 1) (by omega)
    exact peek_some_lt hpk2
  have hstep := step_unset_digit source p p none hpk hb
  have hall2 : ∀ j, j < k - 1 → digitAt source (p + 1 + j) := by
    intro j hj
    have := hall (j + 1) (by omega)
    rwa [show p + (j + 1) = p + 1 + j by omega] at this
  have hstop2 : peek source (p + 1 + (k - 1)) = some 46 := by
    rwa [show p + 1 + (k - 1) = p + k by omega]
  have hrun := number_state_run_dot source p (k - 1) (p + 1) none
    (source.length - p + 1) hall2 hstop2 (by omega)
  refine next_eq_of_runLoop source p ?_
  rw [show source.length - p + 2 = (source.length - p + 1) + 1 by omega,
    runLoop_step source p (source.length - p + 1) TokenizerState.Unset p none (by decide),
    hstep, hrun, show p + 1 + (k - 1) + 1 = p + k + 1 by omega]

/-- A run of k digits at the cursor followed by a closing parenthesis is
emitted as one NumParen token whose slice includes the parenthesis. -/
theorem next_digits_paren (source : List Nat) (p k : Nat) (hk : 1 ≤ k)
    (hall : ∀ i, i < k → digitAt source (p + i))
    (hstop : peek source (p + k) = some 41) :
    Tokenizer.next ⟨p, source⟩ =
      (some (Token.NumParen (p, p + k + 1)), ⟨p + k + 1, source⟩) := by
  obtain ⟨b, hpk, hb⟩ := hall 0 (by omega)
  rw [show p + 0 = p by omega] at hpk
  have hlast : p + (k - 1) < source.length := by
    obtain ⟨b2, hpk2, _⟩ := hall (k - 1) (by omega)
    exact peek_some_lt hpk2
  have hstep := step_unset_digit source p p none hpk hb
  have hall2 : ∀ j, j < k - 1 → digitAt source (p + 1 + j) := by
    intro j hj
    have := hall (j + 1) (by omega)
    rwa [show p + (j + 1) = p + 1 + j by omega] at this
  have hstop2 : peek source (p + 1 + (k - 1)) = some 41 := by
    rwa [show p + 1 + (k - 1) = p + k by omega]
  have hrun := number_state_run_paren source p (k - 1) (p + 1) none
    (source.length - p + 1) hall2 hstop2 (by omega)
  refine next_eq_of_runLoop source p ?_
  rw [show source.length - p + 2 = (source.length - p + 1) + 1 by omega,
    runLoop_step source p (source.length - p + 1) TokenizerState.Unset p none (by decide),
    hstep, hrun, show p + 1 + (k - 1) + 1 = p + k + 1 by omega]

/-- A run of k digits at the cursor followed by anything other than a
digit, a dot or a closing parenthesis is reclassified: one Plaintext
token is emitted covering the digits together with what follows, and no
separate digit token ever appears. -/
theorem next_digits_other (source : List Nat) (p k : Nat) (hk : 1 ≤ k)
    (hall : ∀ i, i < k → digitAt source (p + i))
    (hnd : ¬ digitAt source (p + k)) (hdot : peek source (p + k) ≠ some 46)
    (hpar : peek source (p + k) ≠ some 41) :
    ∃ e, p + k + 1 ≤ e ∧
      Tokenizer.next ⟨p, source⟩ = (some (Token.Plaintext (p, e)), ⟨e, source⟩) := by
  obtain ⟨b, hpk, hb⟩ := hall 0 (by omega)
  rw [show p + 0 = p by omega] at hpk
  have h0 : p < source.length := peek_some_lt hpk
  have hstep := step_unset_digit source p p none hpk hb
  have hall2 : ∀ j, j < k - 1 → digitAt source (p + 1 + j) := by
    intro j hj
    have := hall (j + 1) (by omega)
    rwa [show p + (j + 1) = p + 1 + j by omega] at this
  have heq : p + 1 + (k - 1) = p + k := by omega
  obtain ⟨e, he, hrun⟩ := number_state_run_other source p (k - 1) (p + 1) none
    (source.length - p + 1) hall2 (heq ▸ hnd) (heq ▸ hdot) (heq ▸ hpar) (by omega)
  refine ⟨e, by omega, ?_⟩
  refine next_eq_of_runLoop source p ?_
  rw [show source.length - p + 2 = (source.length - p + 1) + 1 by omega,
    runLoop_step source p (source.length - p + 1) TokenizerState.Unset p none (by decide),
    hstep, hrun]

/-- C1 (code bug witnessed): the spec's coverage and contiguity
invariant fails on the one-byte source consisting of the digit 1: the
tokenizer emits a single Plaintext token whose end offset is 2, one
past the end of the source, because the Number state's fall-through arm
advances the cursor even at end of input.  So the last token's end
offset does not equal the source's length. -/
theorem c1_digit_run_overshoots_source :
    tokenize 0 [49] = [Token.Plaintext (0, 2)] ∧ 2 ≠ ([49] : List Nat).length :=
  ⟨by decide, by decide⟩

/-- C2 (code bug witnessed): on the lookahead produced by the source
consisting of a hash then a space, heading open returns the Hash
token's end offset 1, not the Whitespace token's end offset 2 claimed
by the spec: the source binds the returned offset from the Hash slice
and discards the Whitespace slice. -/
theorem c2_open_returns_hash_end :
    headingOpen (Node.new Kind.Plaintext 0) (some (Token.Hash (0, 1)))
        (some (Token.Whitespace (1, 2))) none =
      some (⟨Kind.Heading 1, 0, none⟩, 1) ∧ (1 : Nat) ≠ 2 :=
  ⟨by decide, by decide⟩

/-- C3 counterexample: a degenerate Hash token of run length 0 also
matches (the guard is end - start at most 6, with no lower bound), so
open does not match exactly when the run length is between 1 and 6. -/
theorem c3_zero_length_hash_opens :
    headingOpen (Node.new Kind.Plaintext 0) (some (Token.Hash (0, 0)))
        (some (Token.Whitespace (0, 1))) none =
      some (⟨Kind.Heading 0, 0, none⟩, 0) ∧ ¬ (1 ≤ 0 - 0) :=
  ⟨by decide, by decide⟩

/-- C3 (amended): heading open returns a match exactly when the first
lookahead token is a Hash whose run length end - start is at most 6
(zero included) and the second is a Whitespace token, for every third
lookahead token and every parent; on match the node has kind Heading of
the run length, start equal to the Hash start, no end offset, and the
match is paired with the offset bound from the Hash token; in every
other case open returns none. -/
theorem c3_open_characterization (par : Node) (a b c : Option Token) :
    ((headingOpen par a b c).isSome ↔
      ∃ s e w, a = some (Token.Hash (s, e)) ∧ b = some (Token.Whitespace w) ∧ e - s ≤ 6) ∧
    (∀ s e w, a = some (Token.Hash (s, e)) → b = some (Token.Whitespace w) → e - s ≤ 6 →
      headingOpen par a b c = some (⟨Kind.Heading (e - s), s, none⟩, e)) := by
  constructor
  · cases a with
    | none => simp [headingOpen]
    | some ta =>
        cases ta with
        | Hash sl =>
            obtain ⟨s, e⟩ := sl
            cases b with
            | none => simp [headingOpen]
            | some tb =>
                cases tb with
                | Whitespace w =>
                    by_cases hle : e - s ≤ 6
                    · simp [headingOpen, hle]
                      exact ⟨s, e, ⟨rfl, rfl⟩, by omega⟩
                    · simp [headingOpen, hle]
                      omega
                | RightCaret w => simp [headingOpen]
                | Hash w => simp [headingOpen]
                | Dash w => simp [headingOpen]
                | Asterisk w => simp [headingOpen]
                | Plus w => simp [headingOpen]
                | NumDot w => simp [headingOpen]
                | NumParen w => simp [headingOpen]
                | Plaintext w => simp [headingOpen]
                | Newline w => simp [headingOpen]
        | RightCaret sl => simp [headingOpen]
        | Dash sl => simp [headingOpen]
        | Asterisk sl => simp [headingOpen]
        | Plus sl => simp [headingOpen]
        | NumDot sl => simp [headingOpen]
        | NumParen sl => simp [headingOpen]
        | Plaintext sl => simp [headingOpen]
        | Whitespace sl => simp [headingOpen]
        | Newline sl => simp [headingOpen]
  · rintro s e w rfl rfl hle
    simp [headingOpen, hle, Node.new]

/-- C3 witness: the characterization applied to a two-hash lookahead. -/
theorem c3_open_characterization_witness :
    headingOpen (Node.new Kind.Plaintext 0) (some (Token.Hash (0, 2)))
        (some (Token.Whitespace (2, 3))) none = some (⟨Kind.Heading 2, 0, none⟩, 2) :=
  (c3_open_characterization (Node.new Kind.Plaintext 0) (some (Token.Hash (0, 2)))
    (some (Token.Whitespace (2, 3))) none).2 0 2 (2, 3) rfl rfl (by decide)

/-- C4: a single heading consume call always sets the node's end
offset: to the leaf consumer's answer when there is one (returning that
answer), and to the original start otherwise (returning none); the
heading is closed by the very next consume call regardless of outcome.
The external leaf consumer is an arbitrary function argument. -/
theorem c4_consume_always_closes (leafConsume : Node → Nat → List Nat → Option Nat)
    (node : Node) (start : Nat) (source : List Nat) :
    (headingConsume leafConsume node start source).1.endOff =
        some ((leafConsume node start source).getD start) ∧
      (headingConsume leafConsume node start source).2 = leafConsume node start source := by
  cases h : leafConsume node start source with
  | none => simp [headingConsume, h]
  | some p => simp [headingConsume, h]

/-- C5: number disambiguation.  A digit run followed by a dot closes as
one NumDot token including the dot; followed by a closing parenthesis
as one NumParen including it; followed by anything else it reclassifies
into a single Plaintext token covering the digits together with what
follows, with no separate digit token; and the spec's concrete example
(the bytes of the two numbered item lines) produces exactly the listed
token sequence. -/
theorem c5_number_disambiguation :
    (∀ source p k, 1 ≤ k → (∀ i, i < k → digitAt source (p + i)) →
      (peek source (p + k) = some 46 →
        Tokenizer.next ⟨p, source⟩ =
          (some (Token.NumDot (p, p + k + 1)), ⟨p + k + 1, source⟩)) ∧
      (peek source (p + k) = some 41 →
        Tokenizer.next ⟨p, source⟩ =
          (some (Token.NumParen (p, p + k + 1)), ⟨p + k + 1, source⟩)) ∧
      (¬ digitAt source (p + k) → peek source (p + k) ≠ some 46 →
        peek source (p + k) ≠ some 41 →
        ∃ e, p + k + 1 ≤ e ∧
          Tokenizer.next ⟨p, source⟩ = (some (Token.Plaintext (p, e)), ⟨e, source⟩))) ∧
    tokenize 0 [49, 46, 32, 73, 116, 101, 109, 10, 49, 50, 46, 32, 73, 116, 101, 109] =
      [Token.NumDot (0, 2), Token.Whitespace (2, 3), Token.Plaintext (3, 7),
        Token.Newline (7, 8), Token.NumDot (8, 11), Token.Whitespace (11, 12),
        Token.Plaintext (12, 16)] := by
  constructor
  · intro source p k hk hall
    exact ⟨fun hstop => next_digits_dot source p k hk hall hstop,
      fun hstop => next_digits_paren source p k hk hall hstop,
      fun hnd hdot hpar => next_digits_other source p k hk hall hnd hdot hpar⟩
  · decide

/-- C5 witness: the dot case applied to the two-byte source 1-dot. -/
theorem c5_number_disambiguation_witness :
    Tokenizer.next ⟨0, [49, 46]⟩ = (some (Token.NumDot (0, 2)), ⟨2, [49, 46]⟩) :=
  ((c5_number_disambiguation.1 [49, 46] 0 1 (by decide)
    (fun i hi => by
      have hi0 : i = 0 := by omega
      subst hi0
      exact ⟨49, by decide, by decide⟩)).1) (by decide)

/-- C6: determinism.  Two tokenizers with the same cursor and source
agree on the next produced token and successor state, and on the whole
collected token sequence for every call budget: each next call is a
pure function of the cursor position and the source text. -/
theorem c6_determinism (t1 t2 : Tokenizer) (hs : t1.start = t2.start)
    (hsrc : t1.source = t2.source) :
    t1.next = t2.next ∧ ∀ fuel, collectTokens fuel t1 = collectTokens fuel t2 := by
  obtain ⟨s1, src1⟩ := t1
  obtain ⟨s2, src2⟩ := t2
  simp only at hs hsrc
  subst hs
  subst hsrc
  exact ⟨rfl, fun _ => rfl⟩

/-- C6 witness: determinism applied to two equal concrete tokenizers. -/
theorem c6_determinism_witness :
    Tokenizer.next ⟨0, [35, 32]⟩ = Tokenizer.next ⟨0, [35, 32]⟩ ∧
      collectTokens 4 ⟨0, [35, 32]⟩ = collectTokens 4 ⟨0, [35, 32]⟩ :=
  ⟨(c6_determinism ⟨0, [35, 32]⟩ ⟨0, [35, 32]⟩ rfl rfl).1,
   (c6_determinism ⟨0, [35, 32]⟩ ⟨0, [35, 32]⟩ rfl rfl).2 4⟩

/-- C7 counterexample: on the one-byte source consisting of the digit
1, a budget of remaining-input-length iterations (one) does not reach
Done, and the full run moves the cursor to 2, one past the end: the
automaton needs more steps than the remaining input length, however
steps are counted. -/
theorem c7_remaining_budget_insufficient :
    (runLoop [49] 0 1 TokenizerState.Unset 0 none).1 ≠ TokenizerState.Done ∧
      (runLoop [49] 0 3 TokenizerState.Unset 0 none).2.1 = 2 :=
  ⟨by decide, by decide⟩

/-- C8: marker characters.  A dash, asterisk or plus at the cursor is
emitted as its own single-character token (one call consumes exactly
one such character, so consecutive repeats are never merged), while a
run of consecutive hash characters accumulates into a single Hash token
that closes the moment a non-hash character or end of input is seen,
regardless of the run's length. -/
theorem c8_marker_tokens :
    (∀ source p, peek source p = some 45 →
      Tokenizer.next ⟨p, source⟩ = (some (Token.Dash (p, p + 1)), ⟨p + 1, source⟩)) ∧
    (∀ source p, peek source p = some 42 →
      Tokenizer.next ⟨p, source⟩ = (some (Token.Asterisk (p, p + 1)), ⟨p + 1, source⟩)) ∧
    (∀ source p, peek source p = some 43 →
      Tokenizer.next ⟨p, source⟩ = (some (Token.Plus (p, p + 1)), ⟨p + 1, source⟩)) ∧
    (∀ source p k, 1 ≤ k → (∀ i, i < k → peek source (p + i) = some 35) →
      peek source (p + k) ≠ some 35 →
      Tokenizer.next ⟨p, source⟩ = (some (Token.Hash (p, p + k)), ⟨p + k, source⟩)) :=
  ⟨next_dash, next_asterisk, next_plus, next_hash_run⟩

/-- C8 witness: a dash pair gives a single-character Dash first, and a
double hash run gives one two-character Hash token. -/
theorem c8_marker_tokens_witness :
    Tokenizer.next ⟨0, [45, 45]⟩ = (some (Token.Dash (0, 1)), ⟨1, [45, 45]⟩) ∧
      Tokenizer.next ⟨0, [35, 35, 32]⟩ = (some (Token.Hash (0, 2)), ⟨2, [35, 35, 32]⟩) :=
  ⟨c8_marker_tokens.1 [45, 45] 0 (by decide),
   c8_marker_tokens.2.2.2 [35, 35, 32] 0 2 (by decide)
     (fun i hi => by
        match i, hi with
        | 0, _ => decide
        | 1, _ => decide)
     (by decide)⟩

/-- C9: the Token to inline Node conversion is a pure total function:
every marker, number and plaintext token maps to a node of Plaintext
kind, every Whitespace or Newline token to a node of Whitespace kind,
always over exactly the token's slice. -/
theorem c9_token_to_node (s : Slice) :
    tokenToNode (Token.RightCaret s) = ⟨Kind.Plaintext, s.1, some s.2⟩ ∧
    tokenToNode (Token.Hash s) = ⟨Kind.Plaintext, s.1, some s.2⟩ ∧
    tokenToNode (Token.Dash s) = ⟨Kind.Plaintext, s.1, some s.2⟩ ∧
    tokenToNode (Token.Asterisk s) = ⟨Kind.Plaintext, s.1, some s.2⟩ ∧
    tokenToNode (Token.Plus s) = ⟨Kind.Plaintext, s.1, some s.2⟩ ∧
    tokenToNode (Token.NumParen s) = ⟨Kind.Plaintext, s.1, some s.2⟩ ∧
    tokenToNode (Token.NumDot s) = ⟨Kind.Plaintext, s.1, some s.2⟩ ∧
    tokenToNode (Token.Plaintext s) = ⟨Kind.Plaintext, s.1, some s.2⟩ ∧
    tokenToNode (Token.Whitespace s) = ⟨Kind.Whitespace, s.1, some s.2⟩ ∧
    tokenToNode (Token.Newline s) = ⟨Kind.Whitespace, s.1, some s.2⟩ := by
  obtain ⟨a, b⟩ := s
  exact ⟨rfl, rfl, rfl, rfl, rfl, rfl, rfl, rfl, rfl, rfl⟩

/-- C10: heading open never inspects the parent node: for every fixed
lookahead triple, any two parent nodes give the same result. -/
theorem c10_open_ignores_parent (p1 p2 : Node) (a b c : Option Token) :
    headingOpen p1 a b c = headingOpen p2 a b c := rfl
